import Mathlib

/-!
Verification development for the tiled flash-attention-v2 engine in
src/Triton/flash_attention_triton.py.

The kernels are embedded shallowly over exact real arithmetic:

* a 4-dimensional tensor is a function (batch, head, position, feature) → ℝ;
  boundary-masked loads (`tl.load` with `mask=…, other=0.0`) become explicit
  conditionals, so reads past an extent yield the mask fill 0, exactly as in
  the kernels;
* the IEEE value -inf, used by the causal mask and as the initial running
  maximum, is modelled as ⊥ of `WithBot ℝ`; `exp` applied to a difference of
  such values is `expSub` below, which agrees with IEEE evaluation at every
  combination the kernels reach (see the comment on `expSub`);
* each Triton program instance is a pure function of its indices; row lanes of
  the forward / dQ kernels and column lanes of the dK/dV kernel are
  independent, so those kernels are embedded per query row / per key column;
* the statistics stores of the forward kernel address flat memory derived from
  the output pointer (source lines 117-130), so the whole forward launch is
  modelled as a grid-ordered fold of flat-memory writes (`fwdLaunch`): each
  program performs its M store (`mStoreAddr`), L store (`lStoreAddr`) and
  output store (`oFlatIdx`) in source order, and the returned output tensor is
  read back from that memory — the misdirected M/L stores can land inside the
  output allocation when `head_dim < batch_size`, and outside every allocation
  otherwise; the backward-preprocess kernel writes a flat statistics buffer,
  modelled the same way (`preprocessLaunched`).
-/

namespace FlashAttn

noncomputable section

/-- A (batch, head, sequence position, feature) indexed real tensor. -/
abbrev Tensor4 := ℕ → ℕ → ℕ → ℕ → ℝ

/-- A per (batch, head, query position) statistics buffer, as M, L and D. -/
abbrev Stats := ℕ → ℕ → ℕ → ℝ

/-- `triton.cdiv`: ceiling division, the number of tiles covering a length. -/
def cdiv (a b : ℕ) : ℕ := (a + b - 1) / b

/-- A boundary-masked tile load: `tl.load(ptr + i*seq_stride + k*dim_stride,
mask=(i < seq_len) & (k < head_dim), other=0.0)`. -/
def load4 (T : Tensor4) (S D : ℕ) (b h i k : ℕ) : ℝ :=
  if i < S ∧ k < D then T b h i k else 0

/-- `exp(x - m)` on IEEE floats where `x` and `m` range over reals extended
with -inf (modelled as ⊥).  The kernels evaluate this in two places:
`alpha = exp(m_old - m_new)` and `p = exp(scores - m)`.  Case analysis:
`x = ⊥, m` finite gives IEEE `exp(-inf) = 0`; both finite gives
`exp (x - m)`.  The remaining cases have `m = ⊥`; every kernel use has
`m` a running maximum with `m ≥ x`, so they arise only when `x = ⊥` as well
and a finite score has been seen (forward, dQ: never, since column 0 is
never causally masked), or for rows loaded with the mask fill `other=-inf`
in the dK/dV kernel, which occurs only when the tile size does not divide
the sequence length.  Both residual cases are given the value 0 here; all
theorems below evaluate the embedding only at points where the kernels
never reach them. -/
def expSub (x m : WithBot ℝ) : ℝ :=
  WithBot.recBotCoe 0
    (fun a => WithBot.recBotCoe 0 (fun c => Real.exp (a - c)) m) x

@[simp] theorem expSub_bot (m : WithBot ℝ) : expSub ⊥ m = 0 := rfl

@[simp] theorem expSub_coe_coe (a c : ℝ) :
    expSub ((a : ℝ) : WithBot ℝ) ((c : ℝ) : WithBot ℝ) = Real.exp (a - c) := rfl

@[simp] theorem expSub_coe_bot (a : ℝ) :
    expSub ((a : ℝ) : WithBot ℝ) ⊥ = 0 := rfl

theorem expSub_nonneg (x m : WithBot ℝ) : 0 ≤ expSub x m := by
  induction x using WithBot.recBotCoe with
  | bot => simp
  | coe a =>
    induction m using WithBot.recBotCoe with
    | bot => simp
    | coe c => exact le_of_lt (by simpa using Real.exp_pos (a - c))

/-- `scores = tl.dot(q_block, tl.trans(k_block)) * scale` at query row `i`,
key column `j`: the dot product runs over the `BLOCK_SIZE_K` feature lanes of
the boundary-masked loads (source lines 58-83). -/
def rawScore (Q K : Tensor4) (scale : ℝ) (S D BK : ℕ) (b h i j : ℕ) : ℝ :=
  (∑ k ∈ Finset.range BK, load4 Q S D b h i k * load4 K S D b h j k) * scale

/-- `scores = tl.where(row_indices >= col_indices, scores, -inf)` under
`IS_CAUSAL` (source lines 85-86): the entry survives iff `j ≤ i`. -/
def maskedScore (causal : Bool) (Q K : Tensor4) (scale : ℝ) (S D BK : ℕ)
    (b h i j : ℕ) : WithBot ℝ :=
  if causal = true ∧ i < j then ⊥ else ((rawScore Q K scale S D BK b h i j : ℝ) : WithBot ℝ)

/-- The per-row carried state of the forward kernel's key/value loop:
running maximum `m_i`, running sum `l_i`, output accumulator `acc`. -/
structure FwdState where
  m : WithBot ℝ
  l : ℝ
  acc : ℕ → ℝ

/-- `m_i = -inf, l_i = 0, acc = 0` (source lines 49-51). -/
def fwdInit : FwdState := { m := ⊥, l := 0, acc := fun _ => 0 }

/-- One iteration of the forward kernel's loop over key/value tiles
(source lines 67-115), for query row `i` and tile index `t` (covering key
columns `t*BN + c`, `c < BN`). -/
def fwdStep (Q K V : Tensor4) (scale : ℝ) (S D BN BK : ℕ) (causal : Bool)
    (b h i : ℕ) (s : FwdState) (t : ℕ) : FwdState :=
  let sc : ℕ → WithBot ℝ := fun c => maskedScore causal Q K scale S D BK b h i (t * BN + c)
  let mNew : WithBot ℝ := s.m ⊔ (Finset.range BN).sup sc
  let alpha : ℝ := expSub s.m mNew
  let p : ℕ → ℝ := fun c => expSub (sc c) mNew
  { m := mNew
    l := alpha * s.l + ∑ c ∈ Finset.range BN, p c
    acc := fun k =>
      alpha * s.acc k + ∑ c ∈ Finset.range BN, p c * load4 V S D b h (t * BN + c) k }

/-- The forward kernel's state for query row `i` after the full loop
`for start_n in range(0, seq_len, BLOCK_SIZE_N)`. -/
def fwdRowState (Q K V : Tensor4) (scale : ℝ) (S D BN BK : ℕ) (causal : Bool)
    (b h i : ℕ) : FwdState :=
  (List.range (cdiv S BN)).foldl (fwdStep Q K V scale S D BN BK causal b h i) fwdInit

/-- `out = acc / l_i[:, None]` (source line 133), feature lane `k`. -/
def fwdRowOut (Q K V : Tensor4) (scale : ℝ) (S D BN BK : ℕ) (causal : Bool)
    (b h i k : ℕ) : ℝ :=
  (fwdRowState Q K V scale S D BN BK causal b h i).acc k /
    (fwdRowState Q K V scale S D BN BK causal b h i).l

/-- The `while block_k < head_dim: block_k *= 2` loop of the dispatcher
(source lines 489-491), started at `cur = 1`.  The `0 < cur` conjunct is
vacuous at the call site and only serves termination of the embedding. -/
def grow (target cur : ℕ) : ℕ :=
  if h : 0 < cur ∧ cur < target then grow target (cur * 2) else cur
termination_by target - cur
decreasing_by omega

/-- The dispatcher's feature-tile size `BLOCK_SIZE_K` (source lines 486-491
and 537-542): `head_dim` if `head_dim & (head_dim - 1) == 0`, else the
doubling loop from 1. -/
def blockK (d : ℕ) : ℕ :=
  if d &&& (d - 1) ≠ 0 then grow d 1 else d

/-- Flat offset (from the output pointer, in elements) of the forward
kernel's M store: `m_ptr = o_ptr + seq_len*head_dim*num_heads*head_dim`,
store at `m_ptr + batch*(num_heads*seq_len) + head*seq_len + row`
(source lines 117-124). -/
def mStoreAddr (S D H : ℕ) (b h i : ℕ) : ℕ :=
  S * D * H * D + (b * (H * S) + h * S + i)

/-- Flat offset of the forward kernel's L store:
`l_ptr = m_ptr + seq_len*head_dim*num_heads` (source lines 118, 126-130). -/
def lStoreAddr (S D H : ℕ) (b h i : ℕ) : ℕ :=
  S * D * H * D + S * D * H + (b * (H * S) + h * S + i)

/-- Number of elements of the output tensor `o = torch.empty_like(q)`. -/
def oNumel (B H S D : ℕ) : ℕ := B * H * S * D

/-- Number of elements of each of the separately allocated statistics
tensors `m`, `l` of shape (batch, heads, seq). -/
def mlNumel (B H S : ℕ) : ℕ := B * H * S

/-- The set of flat offsets (from the output pointer) that the forward
launch writes through its M/L stores: one per in-range row of every
program of the grid `(batch, heads, cdiv(seq, block))`. -/
def fwdWritesML (B H S D : ℕ) (a : ℕ) : Prop :=
  ∃ b h i, b < B ∧ h < H ∧ i < S ∧
    (a = mStoreAddr S D H b h i ∨ a = lStoreAddr S D H b h i)

/-- What `FlashAttentionV2.forward` hands to the caller and saves for
backward: the output tensor and the `m`, `l` tensors it allocated. -/
structure FwdResult where
  o : Tensor4
  savedM : Stats
  savedL : Stats

/-- A single store into a flat memory buffer. -/
def store1 (mem : ℕ → ℝ) (addr : ℕ) (v : ℝ) : ℕ → ℝ :=
  fun a => if a = addr then v else mem a

/-- The float the forward kernel stores for a row's M statistic.  The IEEE
value is -inf (⊥) exactly when the row never saw a finite score; for every
row the kernel stores (`row < seq_len`, with `seq_len ≥ 1` and a positive
key-tile size) the running maximum is finite (`fwdStep_init_good` below), so
the junk value 0 chosen at ⊥ is never stored. -/
def unbotReal (x : WithBot ℝ) : ℝ := WithBot.recBotCoe 0 id x

/-- Flat element offset of output element `(b, h, i, k)` under the
contiguous strides of `o = torch.empty_like(q)`:
`((b*H + h)*S + i)*D + k`. -/
def oFlatIdx (H S D : ℕ) (b h i k : ℕ) : ℕ := ((b * H + h) * S + i) * D + k

/-- The `torch.empty_like` contents of the output allocation (and of the
heap beyond it) read at a flat offset, via the contiguous layout. -/
def oInitFlat (oInit : Tensor4) (H S D : ℕ) : ℕ → ℝ :=
  fun a => oInit (a / (H * S * D)) (a % (H * S * D) / (S * D)) (a % (S * D) / D) (a % D)

/-- All stores of one forward program `(b, h, mId)` applied to the flat
memory holding the output allocation, in source order: the masked M store
(lines 120-124, at `mStoreAddr` — derived from the output pointer), the
masked L store (lines 126-130, at `lStoreAddr`), then the masked output
store (lines 136-142, at `oFlatIdx`).  Rows of the tile are
`mId*BM + r`, `r < BM`; each single masked store has pairwise distinct
addresses, so serialising its elements is exact. -/
def fwdProgramStores (Q K V : Tensor4) (scale : ℝ) (H S D BM BN BK : ℕ)
    (causal : Bool) (b h mId : ℕ) (mem : ℕ → ℝ) : ℕ → ℝ :=
  let memM := (List.range BM).foldl
    (fun m2 r =>
      if mId * BM + r < S then
        store1 m2 (mStoreAddr S D H b h (mId * BM + r))
          (unbotReal (fwdRowState Q K V scale S D BN BK causal b h (mId * BM + r)).m)
      else m2) mem
  let memL := (List.range BM).foldl
    (fun m2 r =>
      if mId * BM + r < S then
        store1 m2 (lStoreAddr S D H b h (mId * BM + r))
          ((fwdRowState Q K V scale S D BN BK causal b h (mId * BM + r)).l)
      else m2) memM
  (List.range BM).foldl
    (fun m2 r =>
      (List.range BK).foldl
        (fun m3 k =>
          if mId * BM + r < S ∧ k < D then
            store1 m3 (oFlatIdx H S D b h (mId * BM + r) k)
              (fwdRowOut Q K V scale S D BN BK causal b h (mId * BM + r) k)
          else m3) m2) memL

/-- The whole forward launch over the grid `(batch, heads, cdiv(seq, BM))`,
folded in grid order.  The programs are concurrent on hardware, so this
realises one admissible schedule: wherever the stores of distinct programs
target distinct addresses it agrees with every schedule, and where they
collide (the misdirected M/L stores can land inside the output allocation
whenever `head_dim < batch_size`) it exhibits one possible outcome. -/
def fwdLaunch (Q K V : Tensor4) (scale : ℝ) (B H S D BM BN BK : ℕ)
    (causal : Bool) (memInit : ℕ → ℝ) : ℕ → ℝ :=
  (List.range B).foldl
    (fun m1 b =>
      (List.range H).foldl
        (fun m2 h =>
          (List.range (cdiv S BM)).foldl
            (fun m3 mId => fwdProgramStores Q K V scale H S D BM BN BK causal b h mId m3)
            m2)
        m1)
    memInit

/-- `FlashAttentionV2.forward` (source lines 470-514): dimensions are read
from `q.shape` alone; the grid is `(batch, heads, cdiv(seq, block))` and
`BLOCK_SIZE_M = BLOCK_SIZE_N = block_size`, `BLOCK_SIZE_K = blockK head_dim`.
The output tensor is the flat memory after all programs' stores — including
the misdirected M/L stores, which are addressed relative to the output
pointer and can overwrite output elements — read back at the element's flat
offset; indices outside the tensor's shape read the `torch.empty_like`
contents `oInit`.  The separately allocated `m`, `l` tensors (`mInit`,
`lInit` model the `torch.empty` contents) are never passed to the kernel,
so `ctx.save_for_backward` saves them untouched. -/
def forwardCall (Q K V : Tensor4) (scale : ℝ) (causal : Bool) (blockSize : ℕ)
    (B H S D : ℕ) (oInit : Tensor4) (mInit lInit : Stats) : FwdResult :=
  { o := fun b h i k =>
      if b < B ∧ h < H ∧ i < S ∧ k < D then
        fwdLaunch Q K V scale B H S D blockSize blockSize (blockK D) causal
          (oInitFlat oInit H S D) (oFlatIdx H S D b h i k)
      else oInit b h i k
    savedM := mInit
    savedL := lInit }

/-- The non-tiled reference score `scale * (Q K^T)` over the true feature
dimension. -/
def refScore (Q K : Tensor4) (scale : ℝ) (D : ℕ) (b h i j : ℕ) : ℝ :=
  (∑ d ∈ Finset.range D, Q b h i d * K b h j d) * scale

/-- The direct (non-tiled) softmax-attention reference
`softmax(scale * Q K^T) V`, row `i`, feature `k`. -/
def refAttn (Q K V : Tensor4) (scale : ℝ) (S D : ℕ) (b h i k : ℕ) : ℝ :=
  (∑ j ∈ Finset.range S, Real.exp (refScore Q K scale D b h i j) * V b h j k) /
    (∑ j ∈ Finset.range S, Real.exp (refScore Q K scale D b h i j))

/-- The reference attention probability `P[i,j]`. -/
def refP (Q K : Tensor4) (scale : ℝ) (S D : ℕ) (b h i j : ℕ) : ℝ :=
  Real.exp (refScore Q K scale D b h i j) /
    ∑ j2 ∈ Finset.range S, Real.exp (refScore Q K scale D b h i j2)

/-- The analytic gradient of the reference softmax attention with respect to
Value: `dV = P^T dO`, key row `j`, feature `k`. -/
def refDV (Q K doT : Tensor4) (scale : ℝ) (S D : ℕ) (b h j k : ℕ) : ℝ :=
  ∑ i ∈ Finset.range S, refP Q K scale S D b h i j * doT b h i k

/-- Number of key positions that actually contribute to query row `i`:
in-range columns surviving the causal mask. -/
def validKeyCount (causal : Bool) (S i : ℕ) : ℕ :=
  ((Finset.range S).filter (fun j => causal = false ∨ j ≤ i)).card

/-- `D = rowsum(O * dO)` for one row, as the backward-preprocess kernel
computes it with the parameter it RECEIVES as `seq_len` (`Sp`): both loads
are masked by `row < Sp` and the feature range is `head_dim` itself
(source lines 160-187). -/
def preprocessRowVal (O dO : Tensor4) (Sp D : ℕ) (b h i : ℕ) : ℝ :=
  ∑ k ∈ Finset.range D,
    (if i < Sp ∧ k < D then O b h i k else 0) * (if i < Sp ∧ k < D then dO b h i k else 0)

/-- One program of the backward-preprocess kernel, parameterised by the
values it receives as `seq_len` (`Sp`) and `num_heads` (`Hp`): it stores
row `bid*BS + r` (for `r < BS`, masked by `row < Sp`) at flat offset
`b*(Hp*Sp) + h*Sp + row` of the D buffer (source lines 156-191). -/
def preprocessProgram (O dO : Tensor4) (Sp Hp D BS : ℕ) (b h bid : ℕ)
    (mem : ℕ → ℝ) : ℕ → ℝ :=
  (List.range BS).foldl
    (fun mem2 r =>
      let i := bid * BS + r
      if i < Sp then
        store1 mem2 (b * (Hp * Sp) + h * Sp + i) (preprocessRowVal O dO Sp D b h i)
      else mem2)
    mem

/-- The preprocess launch as `FlashAttentionV2.backward` performs it
(source lines 545-554): the grid is `(batch, heads, cdiv(seq, block))`, but
the scalar arguments are passed in the order
`(batch_size, num_heads, seq_len, head_dim)` against the kernel signature
`(batch_size, seq_len, num_heads, head_dim)`, so the kernel receives
`seq_len := H` and `num_heads := S`.  Programs are folded sequentially; on
hardware they are concurrent, which coincides with this model whenever the
store addresses are pairwise distinct (as in every instance used below). -/
def preprocessLaunched (O dO : Tensor4) (dInit : ℕ → ℝ) (B H S D BS : ℕ) : ℕ → ℝ :=
  (List.range B).foldl
    (fun m1 b =>
      (List.range H).foldl
        (fun m2 h =>
          (List.range (cdiv S BS)).foldl
            (fun m3 bid => preprocessProgram O dO H S D BS b h bid m3) m2)
        m1)
    dInit

/-- Flat offset of row statistic `(b, h, i)` in a (batch, heads, seq)
buffer, as the dQ and dK/dV kernels compute it:
`batch*(num_heads*seq_len) + head*seq_len + row` (source lines 232, 371). -/
def stat3Idx (H S : ℕ) (b h i : ℕ) : ℕ := b * (H * S) + h * S + i

/-- The dQ kernel for query row `i` (source lines 194-324): loads the row's
M, L, D statistics (masked, `other = -inf` for M and `0` for L, D), then for
every key/value tile recomputes the masked scores exactly as forward,
`p = exp(scores - m_i)`, `dp = dO V^T`, `ds = p * (dp - d_i)` and
accumulates `dq += (ds K) * scale`.  The loaded `l_i` is bound and never
used, exactly as in the source (lines 238-242). -/
def dqRow (Q K V doT : Tensor4) (M L Dst : Stats) (scale : ℝ) (S D BN BK : ℕ)
    (causal : Bool) (b h i : ℕ) : ℕ → ℝ :=
  let m_i : WithBot ℝ := if i < S then ((M b h i : ℝ) : WithBot ℝ) else ⊥
  let _l_i : ℝ := if i < S then L b h i else 0
  let d_i : ℝ := if i < S then Dst b h i else 0
  (List.range (cdiv S BN)).foldl
    (fun dq t =>
      let p : ℕ → ℝ := fun c => expSub (maskedScore causal Q K scale S D BK b h i (t * BN + c)) m_i
      let dp : ℕ → ℝ := fun c =>
        ∑ k2 ∈ Finset.range BK, load4 doT S D b h i k2 * load4 V S D b h (t * BN + c) k2
      fun k => dq k + (∑ c ∈ Finset.range BN, p c * (dp c - d_i) * load4 K S D b h (t * BN + c) k) * scale)
    (fun _ => 0)

/-- The accumulators of one dK/dV program, for a single key/value column. -/
structure DkvState where
  dk : ℕ → ℝ
  dv : ℕ → ℝ

/-- The dK/dV kernel for key/value column `j` (source lines 327-467): for
every query tile (rows `i = t*BM + r`), loads Q, dO (masked), the M
statistic (`other = -inf`) and the D statistic (`other = 0`), recomputes the
transposed scores `qk_t = (K Q^T) * scale` with the transposed causal mask,
`p_t = exp(qk_t - m_i)`, accumulates `dv += p_t dO`, computes
`dp_t = V dO^T`, `ds_t = p_t * (dp_t - d_i)` and accumulates
`dk += (ds_t Q) * scale`.  The kernel receives the L pointer but never
loads from it. -/
def dkvCol (Q K V doT : Tensor4) (M Dst : Stats) (scale : ℝ) (S D BM BK : ℕ)
    (causal : Bool) (b h j : ℕ) : DkvState :=
  (List.range (cdiv S BM)).foldl
    (fun s t =>
      let pT : ℕ → ℝ := fun r =>
        let i := t * BM + r
        let m_i : WithBot ℝ := if i < S then ((M b h i : ℝ) : WithBot ℝ) else ⊥
        let qkT : WithBot ℝ :=
          if causal = true ∧ i < j then ⊥
          else (((∑ k2 ∈ Finset.range BK, load4 K S D b h j k2 * load4 Q S D b h i k2) * scale : ℝ) : WithBot ℝ)
        expSub qkT m_i
      let dpT : ℕ → ℝ := fun r =>
        ∑ k2 ∈ Finset.range BK, load4 V S D b h j k2 * load4 doT S D b h (t * BM + r) k2
      let dI : ℕ → ℝ := fun r => if t * BM + r < S then Dst b h (t * BM + r) else 0
      { dk := fun k =>
          s.dk k + (∑ r ∈ Finset.range BM, pT r * (dpT r - dI r) * load4 Q S D b h (t * BM + r) k) * scale
        dv := fun k =>
          s.dv k + ∑ r ∈ Finset.range BM, pT r * load4 doT S D b h (t * BM + r) k })
    { dk := fun _ => 0, dv := fun _ => 0 }

/-- The three gradients returned by `FlashAttentionV2.backward`. -/
structure BwdResult where
  dq : Tensor4
  dk : Tensor4
  dv : Tensor4

/-- `FlashAttentionV2.backward` (source lines 516-601): `dq`, `dk`, `dv` are
zero-initialised (`torch.zeros_like`); the preprocess launch fills the flat
D buffer (with its swapped scalar arguments); the dQ and dK/dV kernels then
read M, L, D through the correctly ordered offsets `stat3Idx` and store
their in-range tiles.  `M`, `L` are the tensors saved by `forwardCall`
(which the forward kernel never populated), `dInit` the `torch.empty`
contents of the D buffer. -/
def backwardCall (Q K V O doT : Tensor4) (M L : Stats) (dInit : ℕ → ℝ)
    (scale : ℝ) (causal : Bool) (BS : ℕ) (B H S D : ℕ) : BwdResult :=
  let dFlat := preprocessLaunched O doT dInit B H S D BS
  let Dst : Stats := fun b h i => dFlat (stat3Idx H S b h i)
  { dq := fun b h i k =>
      if b < B ∧ h < H ∧ i < S ∧ k < D then
        dqRow Q K V doT M L Dst scale S D BS (blockK D) causal b h i k
      else 0
    dk := fun b h j k =>
      if b < B ∧ h < H ∧ j < S ∧ k < D then
        (dkvCol Q K V doT M Dst scale S D BS (blockK D) causal b h j).dk k
      else 0
    dv := fun b h j k =>
      if b < B ∧ h < H ∧ j < S ∧ k < D then
        (dkvCol Q K V doT M Dst scale S D BS (blockK D) causal b h j).dv k
      else 0 }

/-! Concrete tensors used by the counterexample evaluations below. -/

/-- The all-zero tensor. -/
def Z4 : Tensor4 := fun _ _ _ _ => 0

/-- The all-one tensor. -/
def One4 : Tensor4 := fun _ _ _ _ => 1

/-- The all-zero statistics buffer. -/
def Z3 : Stats := fun _ _ _ => 0

/-- A statistics buffer holding 5 everywhere: possible `torch.empty`
contents of the M tensor. -/
def M5 : Stats := fun _ _ _ => 5

/-- A statistics buffer holding 7 everywhere: possible `torch.empty`
contents of the L tensor. -/
def L7 : Stats := fun _ _ _ => 7

/-- A Value tensor that agrees with `Z4` at sequence position 0 and differs
from it at every later position. -/
def VB : Tensor4 := fun _ _ j _ => if j = 0 then 0 else 2

/-- A Key tensor that agrees with `K6b` at sequence position 0 and differs
from it at every later position. -/
def K6a : Tensor4 := fun _ _ j _ => if j = 0 then 1 else 2

/-- A Key tensor that agrees with `K6a` at sequence position 0 and differs
from it at every later position. -/
def K6b : Tensor4 := fun _ _ j _ => if j = 0 then 1 else 3

/-- Query tensor for the statistics-aliasing counterexample: row 1 of
batch 4 is the first unit feature vector, all other rows 0. -/
def Q6c : Tensor4 := fun b _ i kk => if b = 4 ∧ i = 1 ∧ kk = 0 then 1 else 0

/-- Key tensor that agrees with `Z4` at every sequence position `≤ 0` and
differs from it at position 1 of batch 4. -/
def K6c : Tensor4 := fun b _ j kk => if b = 4 ∧ j = 1 ∧ kk = 0 then 5 else 0

/-! ## Evaluation helpers -/

@[simp] theorem expSub_zero_zero : expSub (0 : WithBot ℝ) (0 : WithBot ℝ) = 1 := by
  have h : ((0 : ℝ) : WithBot ℝ) = (0 : WithBot ℝ) := rfl
  rw [← h, expSub_coe_coe]
  simp

@[simp] theorem load4_Z4 (S D b h i k : ℕ) : load4 Z4 S D b h i k = 0 := by
  simp [load4, Z4]

@[simp] theorem load4_One4 (S D b h i k : ℕ) :
    load4 One4 S D b h i k = if i < S ∧ k < D then 1 else 0 := by
  simp [load4, One4]

@[simp] theorem rawScore_Z4_left (K : Tensor4) (scale : ℝ) (S D BK b h i j : ℕ) :
    rawScore Z4 K scale S D BK b h i j = 0 := by
  simp [rawScore]

@[simp] theorem maskedScore_false (Q K : Tensor4) (scale : ℝ) (S D BK b h i j : ℕ) :
    maskedScore false Q K scale S D BK b h i j =
      ((rawScore Q K scale S D BK b h i j : ℝ) : WithBot ℝ) := by
  simp [maskedScore]

theorem blockK_one : blockK 1 = 1 := by decide

theorem blockK_two : blockK 2 = 2 := by decide

theorem listRangeOne : List.range 1 = [0] := by decide

theorem listRangeTwo : List.range 2 = [0, 1] := by decide

theorem listRangeFive : List.range 5 = [0, 1, 2, 3, 4] := by decide

@[simp] theorem unbotReal_coe (a : ℝ) : unbotReal ((a : ℝ) : WithBot ℝ) = a := rfl

@[simp] theorem unbotReal_zero : unbotReal (0 : WithBot ℝ) = 0 := rfl

/-! ## Memory separation for the forward launch

The forward kernel's three stores go to `mStoreAddr`, `lStoreAddr` and
`oFlatIdx`.  The lemmas below locate the last write to an output element's
address in the grid-ordered launch: whenever `batch_size ≤ head_dim`, the
M/L store offsets lie at or beyond the end of the output allocation, so an
in-range output element is written exactly once — by the out store of its
own program — and the read gives `fwdRowOut`. -/

theorem store1_self (mem : ℕ → ℝ) (a : ℕ) (v : ℝ) : store1 mem a v a = v := by
  simp [store1]

theorem store1_ne (mem : ℕ → ℝ) (a : ℕ) (v : ℝ) (a2 : ℕ) (h : a2 ≠ a) :
    store1 mem a v a2 = mem a2 := by
  simp [store1, h]

/-- A fold whose steps never write `addr` leaves `addr` unchanged. -/
theorem foldl_mem_untouched (g : (ℕ → ℝ) → ℕ → (ℕ → ℝ)) (addr : ℕ) :
    ∀ (L : List ℕ) (mem : ℕ → ℝ),
      (∀ mem2 x, x ∈ L → g mem2 x addr = mem2 addr) → (L.foldl g mem) addr = mem addr := by
  intro L
  induction L with
  | nil => intro mem _; rfl
  | cons x xs ih =>
    intro mem hL
    rw [List.foldl_cons,
      ih (g mem x) (fun mem2 y hy => hL mem2 y (List.mem_cons_of_mem x hy))]
    exact hL mem x (List.mem_cons_self x xs)

/-- If step `p` writes value `v` to `addr` and every later step leaves
`addr` alone, the fold's final memory holds `v` at `addr`. -/
theorem foldl_mem_last (g : (ℕ → ℝ) → ℕ → (ℕ → ℝ)) (addr : ℕ) (v : ℝ)
    (L1 L2 : List ℕ) (p : ℕ)
    (hp : ∀ mem2, g mem2 p addr = v)
    (h2 : ∀ mem2 x, x ∈ L2 → g mem2 x addr = mem2 addr) :
    ∀ mem, ((L1 ++ p :: L2).foldl g mem) addr = v := by
  intro mem
  rw [List.foldl_append, List.foldl_cons,
    foldl_mem_untouched g addr L2 _ h2]
  exact hp _

/-- `range B` split at a member `b`: the part before, `b`, the part after. -/
theorem range_split {b B : ℕ} (hb : b < B) :
    List.range B = List.range b ++ b :: (List.range (B - b - 1)).map (fun x => b + (1 + x)) := by
  calc List.range B = List.range (b + (1 + (B - b - 1))) := by
        rw [show b + (1 + (B - b - 1)) = B by omega]
    _ = List.range b ++ (List.range (1 + (B - b - 1))).map (b + ·) := List.range_add _ _
    _ = _ := by
        rw [List.range_add, listRangeOne, List.map_append, List.map_map]
        simp [Function.comp]
        intro a ha
        omega

theorem mixed_lt {x X y Y : ℕ} (hx : x < X) (hy : y < Y) : x * Y + y < X * Y :=
  calc x * Y + y < x * Y + Y := by omega
    _ = (x + 1) * Y := by ring
    _ ≤ X * Y := Nat.mul_le_mul_right Y (by omega)

/-- In-range output elements live strictly inside the output allocation. -/
theorem oFlatIdx_lt {B H S D b h i k : ℕ}
    (hb : b < B) (hh : h < H) (hi : i < S) (hk : k < D) :
    oFlatIdx H S D b h i k < oNumel B H S D :=
  mixed_lt (mixed_lt (mixed_lt hb hh) hi) hk

/-- With `batch_size ≤ head_dim` the M store offsets lie at or beyond the
end of the output allocation. -/
theorem oNumel_le_mStoreAddr {B H S D : ℕ} (hBD : B ≤ D) (b h i : ℕ) :
    oNumel B H S D ≤ mStoreAddr S D H b h i := by
  unfold oNumel mStoreAddr
  have hbase : B * H * S * D ≤ S * D * H * D :=
    calc B * H * S * D = (H * S * D) * B := by ring
      _ ≤ (H * S * D) * D := Nat.mul_le_mul_left _ hBD
      _ = S * D * H * D := by ring
  omega

/-- With `batch_size ≤ head_dim` the L store offsets lie at or beyond the
end of the output allocation. -/
theorem oNumel_le_lStoreAddr {B H S D : ℕ} (hBD : B ≤ D) (b h i : ℕ) :
    oNumel B H S D ≤ lStoreAddr S D H b h i := by
  unfold oNumel lStoreAddr
  have hbase : B * H * S * D ≤ S * D * H * D :=
    calc B * H * S * D = (H * S * D) * B := by ring
      _ ≤ (H * S * D) * D := Nat.mul_le_mul_left _ hBD
      _ = S * D * H * D := by ring
  omega

/-- Quotient/remainder uniqueness for mixed-radix addresses. -/
theorem mulAddLtInj {M x1 x2 r1 r2 : ℕ} (h1 : r1 < M) (h2 : r2 < M)
    (he : x1 * M + r1 = x2 * M + r2) : x1 = x2 ∧ r1 = r2 := by
  have hx : x1 = x2 := by
    rcases Nat.lt_trichotomy x1 x2 with h | h | h
    · exfalso
      have hlt : x1 * M + r1 < x2 * M + r2 :=
        calc x1 * M + r1 < x1 * M + M := by omega
          _ = (x1 + 1) * M := by ring
          _ ≤ x2 * M := Nat.mul_le_mul_right M (by omega)
          _ ≤ x2 * M + r2 := Nat.le_add_right _ _
      omega
    · exact h
    · exfalso
      have hlt : x2 * M + r2 < x1 * M + r1 :=
        calc x2 * M + r2 < x2 * M + M := by omega
          _ = (x2 + 1) * M := by ring
          _ ≤ x1 * M := Nat.mul_le_mul_right M (by omega)
          _ ≤ x1 * M + r1 := Nat.le_add_right _ _
      omega
  subst hx
  exact ⟨rfl, by omega⟩

/-- Distinct in-range output elements have distinct flat offsets. -/
theorem oFlatIdx_ne {H S D b1 h1 i1 k1 b2 h2 i2 k2 : ℕ}
    (hh1 : h1 < H) (hi1 : i1 < S) (hk1 : k1 < D)
    (hh2 : h2 < H) (hi2 : i2 < S) (hk2 : k2 < D)
    (hne : ¬(b1 = b2 ∧ h1 = h2 ∧ i1 = i2 ∧ k1 = k2)) :
    oFlatIdx H S D b1 h1 i1 k1 ≠ oFlatIdx H S D b2 h2 i2 k2 := by
  intro he
  unfold oFlatIdx at he
  obtain ⟨e1, ek⟩ := mulAddLtInj hk1 hk2 he
  obtain ⟨e2, ei⟩ := mulAddLtInj hi1 hi2 e1
  obtain ⟨eb, eh⟩ := mulAddLtInj hh1 hh2 e2
  exact hne ⟨eb, eh, ei, ek⟩

/-- `cdiv` tiles really cover the sequence. -/
theorem cdiv_mul_ge (S BM : ℕ) (hBM : 0 < BM) : S ≤ cdiv S BM * BM := by
  rw [cdiv, Nat.mul_comm]
  have h1 := Nat.div_add_mod (S + BM - 1) BM
  have h2 : (S + BM - 1) % BM < BM := Nat.mod_lt _ hBM
  generalize hP : BM * ((S + BM - 1) / BM) = P at h1 ⊢
  omega

/-- The tile containing an in-range row is within the grid. -/
theorem row_tile_lt {S BM i : ℕ} (hi : i < S) (hBM : 0 < BM) :
    i / BM < cdiv S BM := by
  rw [Nat.div_lt_iff_lt_mul hBM]
  exact lt_of_lt_of_le hi (cdiv_mul_ge S BM hBM)

/-- A row of tile `mId` is mapped back to tile `mId` by division. -/
theorem tile_row_div {BM mId r : ℕ} (hBM : 0 < BM) (hr : r < BM) :
    (mId * BM + r) / BM = mId := by
  rw [Nat.mul_comm mId BM, Nat.mul_add_div hBM, Nat.div_eq_of_lt hr]
  omega

/-- A program whose (batch, head, tile) is not the one owning row `i` never
writes the flat offset of output element `(b, h, i, k)`: its M/L stores lie
beyond the output allocation (as `B ≤ D`) and its out stores address
different elements. -/
theorem fwdProgramStores_untouched (Q K V : Tensor4) (scale : ℝ)
    {B H S D : ℕ} (BM BN BK : ℕ) (causal : Bool) (b2 h2 mId2 : ℕ)
    {b h i k : ℕ}
    (hBD : B ≤ D) (hBM : 0 < BM)
    (hb : b < B) (hh : h < H) (hi : i < S) (hk : k < D)
    (hh2 : h2 < H)
    (hne : ¬(b2 = b ∧ h2 = h ∧ mId2 = i / BM)) :
    ∀ mem, fwdProgramStores Q K V scale H S D BM BN BK causal b2 h2 mId2 mem
        (oFlatIdx H S D b h i k) = mem (oFlatIdx H S D b h i k) := by
  intro mem
  have haddr : oFlatIdx H S D b h i k < oNumel B H S D := oFlatIdx_lt hb hh hi hk
  simp only [fwdProgramStores]
  have hmiss_o : ∀ (mem2 : ℕ → ℝ) (r : ℕ), r ∈ List.range BM →
      ((List.range BK).foldl
        (fun m3 k2 =>
          if mId2 * BM + r < S ∧ k2 < D then
            store1 m3 (oFlatIdx H S D b2 h2 (mId2 * BM + r) k2)
              (fwdRowOut Q K V scale S D BN BK causal b2 h2 (mId2 * BM + r) k2)
          else m3) mem2) (oFlatIdx H S D b h i k) = mem2 (oFlatIdx H S D b h i k) := by
    intro mem2 r hr
    apply foldl_mem_untouched
    intro mem3 k2 _
    by_cases hc : mId2 * BM + r < S ∧ k2 < D
    · rw [if_pos hc]
      apply store1_ne
      apply oFlatIdx_ne hh hi hk hh2 hc.1 hc.2
      rintro ⟨eb, eh, ei, -⟩
      refine hne ⟨eb.symm, eh.symm, ?_⟩
      have hrBM : r < BM := List.mem_range.mp hr
      have hdiv : i / BM = mId2 := by rw [ei]; exact tile_row_div hBM hrBM
      exact hdiv.symm
    · rw [if_neg hc]
  have hmiss_l : ∀ (mem2 : ℕ → ℝ) (r : ℕ), r ∈ List.range BM →
      (if mId2 * BM + r < S then
        store1 mem2 (lStoreAddr S D H b2 h2 (mId2 * BM + r))
          ((fwdRowState Q K V scale S D BN BK causal b2 h2 (mId2 * BM + r)).l)
      else mem2) (oFlatIdx H S D b h i k) = mem2 (oFlatIdx H S D b h i k) := by
    intro mem2 r _
    by_cases hc : mId2 * BM + r < S
    · rw [if_pos hc]
      exact store1_ne _ _ _ _
        (Nat.ne_of_lt (lt_of_lt_of_le haddr (oNumel_le_lStoreAddr hBD _ _ _)))
    · rw [if_neg hc]
  have hmiss_m : ∀ (mem2 : ℕ → ℝ) (r : ℕ), r ∈ List.range BM →
      (if mId2 * BM + r < S then
        store1 mem2 (mStoreAddr S D H b2 h2 (mId2 * BM + r))
          (unbotReal (fwdRowState Q K V scale S D BN BK causal b2 h2 (mId2 * BM + r)).m)
      else mem2) (oFlatIdx H S D b h i k) = mem2 (oFlatIdx H S D b h i k) := by
    intro mem2 r _
    by_cases hc : mId2 * BM + r < S
    · rw [if_pos hc]
      exact store1_ne _ _ _ _
        (Nat.ne_of_lt (lt_of_lt_of_le haddr (oNumel_le_mStoreAddr hBD _ _ _)))
    · rw [if_neg hc]
  exact (foldl_mem_untouched _ _ _ _ hmiss_o).trans
    ((foldl_mem_untouched _ _ _ _ hmiss_l).trans (foldl_mem_untouched _ _ _ _ hmiss_m))

/-- The program owning row `i` leaves `fwdRowOut` at the element's flat
offset, whatever memory it starts from: its out store writes the element
after its M/L stores, and later slots of the same out store address other
elements. -/
theorem fwdProgramStores_read_out (Q K V : Tensor4) (scale : ℝ)
    {H S D : ℕ} (BM BN BK : ℕ) (causal : Bool) {b h i k : ℕ}
    (hBM : 0 < BM) (hh : h < H) (hi : i < S) (hk : k < D) (hkBK : k < BK) :
    ∀ mem, fwdProgramStores Q K V scale H S D BM BN BK causal b h (i / BM) mem
        (oFlatIdx H S D b h i k) = fwdRowOut Q K V scale S D BN BK causal b h i k := by
  intro mem
  simp only [fwdProgramStores]
  have hr : i % BM < BM := Nat.mod_lt _ hBM
  have hrow : i / BM * BM + i % BM = i := by
    rw [Nat.mul_comm]
    exact Nat.div_add_mod i BM
  rw [range_split hr]
  apply foldl_mem_last
  · intro mem2
    rw [hrow, range_split hkBK]
    apply foldl_mem_last
    · intro mem3
      rw [if_pos ⟨hi, hk⟩]
      exact store1_self _ _ _
    · intro mem3 k2 hk2
      obtain ⟨y, hy, rfl⟩ := List.mem_map.mp hk2
      by_cases hc : i < S ∧ k + (1 + y) < D
      · rw [if_pos hc]
        apply store1_ne
        intro he
        unfold oFlatIdx at he
        have hcancel := Nat.add_left_cancel he
        omega
      · rw [if_neg hc]
  · intro mem2 r2 hr2
    obtain ⟨y, hy, rfl⟩ := List.mem_map.mp hr2
    apply foldl_mem_untouched
    intro mem3 k2 _
    by_cases hc : i / BM * BM + (i % BM + (1 + y)) < S ∧ k2 < D
    · rw [if_pos hc]
      apply store1_ne
      apply oFlatIdx_ne hh hi hk hh hc.1 hc.2
      rintro ⟨-, -, ei, -⟩
      have h2 := hrow
      generalize hP : i / BM * BM = P at ei h2
      omega
    · rw [if_neg hc]

/-- Reading an in-range output element after the whole launch gives the
kernel's normalised row output, provided `batch_size ≤ head_dim` (so the
misdirected M/L stores land beyond the output allocation). -/
theorem fwdLaunch_read {Q K V : Tensor4} {scale : ℝ} {B H S D BM BN BK : ℕ}
    {causal : Bool} {memInit : ℕ → ℝ} {b h i k : ℕ}
    (hBD : B ≤ D) (hBM : 0 < BM)
    (hb : b < B) (hh : h < H) (hi : i < S) (hk : k < D) (hkBK : k < BK) :
    fwdLaunch Q K V scale B H S D BM BN BK causal memInit (oFlatIdx H S D b h i k) =
      fwdRowOut Q K V scale S D BN BK causal b h i k := by
  unfold fwdLaunch
  rw [range_split hb]
  apply foldl_mem_last
  · intro mem1
    rw [range_split hh]
    apply foldl_mem_last
    · intro mem2
      have hmId : i / BM < cdiv S BM := row_tile_lt hi hBM
      rw [range_split hmId]
      apply foldl_mem_last
      · intro mem3
        exact fwdProgramStores_read_out Q K V scale BM BN BK causal hBM hh hi hk hkBK mem3
      · intro mem3 x hx
        obtain ⟨y, hy, rfl⟩ := List.mem_map.mp hx
        refine fwdProgramStores_untouched Q K V scale BM BN BK causal b h _
          hBD hBM hb hh hi hk hh ?_ mem3
        rintro ⟨-, -, he⟩
        omega
    · intro mem2 x hx
      obtain ⟨y, hy, rfl⟩ := List.mem_map.mp hx
      apply foldl_mem_untouched
      intro mem3 mId2 _
      refine fwdProgramStores_untouched Q K V scale BM BN BK causal b _ mId2
        hBD hBM hb hh hi hk ?_ ?_ mem3
      · have hy2 := List.mem_range.mp hy
        omega
      · rintro ⟨-, he, -⟩
        omega
  · intro mem1 x hx
    obtain ⟨y, hy, rfl⟩ := List.mem_map.mp hx
    apply foldl_mem_untouched
    intro mem2 h2 hh2
    apply foldl_mem_untouched
    intro mem3 mId2 _
    refine fwdProgramStores_untouched Q K V scale BM BN BK causal _ h2 mId2
      hBD hBM hb hh hi hk (List.mem_range.mp hh2) ?_ mem3
    rintro ⟨he, -, -⟩
    omega

/-! ## Claim theorems -/

/-- C10: for every valid input to the backward call, replacing the contents
of the L statistics buffer with arbitrary other values leaves dQuery, dKey
and dValue unchanged: the dQ kernel binds the loaded L row without using it
and the dK/dV kernel never reads L at all, so the two runs are literally the
same computation. -/
theorem C10_l_noninterference (Q K V O doT : Tensor4) (M : Stats) (L L2 : Stats)
    (dInit : ℕ → ℝ) (scale : ℝ) (causal : Bool) (BS B H S D : ℕ) :
    backwardCall Q K V O doT M L dInit scale causal BS B H S D =
      backwardCall Q K V O doT M L2 dInit scale causal BS B H S D := rfl

/-- C1 is violated: the forward kernel never receives the allocated M/L
tensors (it derives its statistics addresses from the output pointer), so
`FlashAttentionV2.forward` saves them for backward with their
`torch.empty` contents intact.  At batch=heads=seq_len=head_dim=1,
tile size 1, Q=K=V=0, scale=1: the kernel's final running maximum is 0 and
final running sum is 1, but the saved M row holds its uninitialised value 5
and the saved L row its uninitialised value 7. -/
theorem C1_counterexample_stats_never_populated :
    (forwardCall Z4 Z4 Z4 1 false 1 1 1 1 1 Z4 M5 L7).savedM 0 0 0 = 5 ∧
      (forwardCall Z4 Z4 Z4 1 false 1 1 1 1 1 Z4 M5 L7).savedL 0 0 0 = 7 ∧
      (fwdRowState Z4 Z4 Z4 1 1 1 1 (blockK 1) false 0 0 0).m = ((0 : ℝ) : WithBot ℝ) ∧
      (fwdRowState Z4 Z4 Z4 1 1 1 1 (blockK 1) false 0 0 0).l = 1 ∧
      (5 : ℝ) ≠ 0 ∧ (7 : ℝ) ≠ 1 := by
  refine ⟨rfl, rfl, ?_, ?_, by norm_num, by norm_num⟩ <;>
    norm_num [fwdRowState, fwdStep, fwdInit, cdiv, blockK_one, listRangeOne,
      Finset.range_one, Finset.sup_singleton, bot_sup_eq]

/-- C2 is violated for tile sizes that do not divide the sequence length:
in non-causal mode the kernel adds `exp(score - m)` for out-of-range key
columns of a partial tile to the running sum (their scores are 0 from the
zero-filled loads and are not masked out), deflating the output.  At
batch=heads=seq_len=head_dim=1, tile size 2, Q=K=0, V=1, scale=1 the kernel
returns 1/2 while the direct softmax-attention reference returns 1. -/
theorem C2_counterexample_partial_tile :
    (forwardCall Z4 Z4 One4 1 false 2 1 1 1 1 Z4 Z3 Z3).o 0 0 0 0 = 1 / 2 ∧
      refAttn Z4 Z4 One4 1 1 1 0 0 0 0 = 1 := by
  constructor
  · have h1 : (forwardCall Z4 Z4 One4 1 false 2 1 1 1 1 Z4 Z3 Z3).o 0 0 0 0 =
        fwdRowOut Z4 Z4 One4 1 1 1 2 (blockK 1) false 0 0 0 0 := by
      simp only [forwardCall]
      rw [if_pos (show (0:ℕ) < 1 ∧ (0:ℕ) < 1 ∧ (0:ℕ) < 1 ∧ (0:ℕ) < 1 by norm_num)]
      exact fwdLaunch_read (by norm_num) (by norm_num) (by norm_num) (by norm_num)
        (by norm_num) (by norm_num) (by rw [blockK_one]; norm_num)
    rw [h1]
    norm_num [fwdRowOut, fwdRowState, fwdStep, fwdInit, cdiv, blockK_one,
      listRangeOne, Finset.sum_range_succ, Finset.sup_const, Finset.nonempty_range_iff,
      bot_sup_eq]
  · norm_num [refAttn, refScore, Z4, One4]

/-- C5 is violated: with batch=1, heads=2, seq_len=1, head_dim=1 and tile
size 2 (which does not divide seq_len), the forward kernel's M store for the
in-range row (b,h,i) = (0,1,0) goes to flat offset 3 from the output
pointer, while the output tensor has only 2 elements (and the real M buffer
2 elements) — an out-of-range write. -/
theorem C5_counterexample_oob_store :
    fwdWritesML 1 2 1 1 3 ∧ oNumel 1 2 1 1 = 2 ∧ mlNumel 1 2 1 = 2 ∧ 1 % 2 ≠ 0 :=
  ⟨⟨0, 1, 0, by decide⟩, by decide, by decide, by decide⟩

/-- C4 is violated: `FlashAttentionV2.backward` launches the preprocess
kernel with `num_heads` and `seq_len` swapped.  With batch=1, heads=1,
seq_len=2, head_dim=1 and tile size 2, the kernel believes the sequence
length is 1, so the statistic for row (0,0,1) — a row with i < seq_len —
is never written and keeps its uninitialised value 7, although the row's
Output·dOutput dot product is 3. -/
theorem C4_counterexample_swapped_launch :
    preprocessLaunched (fun _ _ i _ => if i = 1 then 3 else 1) One4 (fun _ => 7)
        1 1 2 1 2 (stat3Idx 1 2 0 0 1) = 7 ∧
      (∑ k ∈ Finset.range 1,
        (fun _ _ i _ => if i = 1 then (3 : ℝ) else 1) 0 0 1 k * One4 0 0 1 k) = 3 ∧
      (7 : ℝ) ≠ 3 := by
  refine ⟨?_, ?_, by norm_num⟩
  · norm_num [preprocessLaunched, preprocessProgram, preprocessRowVal, cdiv, stat3Idx,
      store1, List.range_succ, One4]
  · norm_num [One4]

/-- C3 is violated: the backward call's dValue does not match the analytic
gradient.  At batch=heads=1, seq_len=2, head_dim=1, tile size 2, Q=K=V=0,
dO=1, scale=1, with the saved M rows holding 0 (which here coincides with
the true running maximum, so the failure is not due to the unpopulated
statistics alone): the dK/dV kernel's probability tile
`P = exp(scores - M)` is not normalised by the row sum L, so it computes
dV = 2 at position (0,0,0,0) while the analytic gradient of the reference
softmax attention is 1. -/
theorem C3_counterexample_dv_not_analytic :
    (backwardCall Z4 Z4 Z4 Z4 One4 Z3 Z3 (fun _ => 0) 1 false 2 1 1 2 1).dv 0 0 0 0 = 2 ∧
      refDV Z4 Z4 One4 1 2 1 0 0 0 0 = 1 := by
  constructor
  · norm_num [backwardCall, dkvCol, blockK_one, cdiv, listRangeOne,
      Finset.sum_range_succ, Z3]
  · norm_num [refDV, refP, refScore, Z4, One4, Finset.sum_range_succ]

/-- C8 is violated: `FlashAttentionV2.forward` performs no shape validation;
it reads every dimension from Query alone and launches the kernel
unconditionally.  With Query of sequence length 2 and Key/Value of sequence
length 1, the launched kernel reads Value at position 1 — beyond Value's
extent — and that datum reaches the in-range output: two Value tensors
agreeing at position 0 give outputs 0 and 1 at (0,0,0,0).  No rejection, and
no report of the mismatched dimension, ever happens. -/
theorem C8_counterexample_no_validation :
    (forwardCall Z4 Z4 Z4 1 false 2 1 1 2 1 Z4 Z3 Z3).o 0 0 0 0 = 0 ∧
      (forwardCall Z4 Z4 VB 1 false 2 1 1 2 1 Z4 Z3 Z3).o 0 0 0 0 = 1 ∧
      VB 0 0 0 0 = Z4 0 0 0 0 := by
  refine ⟨?_, ?_, by norm_num [VB, Z4]⟩
  · have h1 : (forwardCall Z4 Z4 Z4 1 false 2 1 1 2 1 Z4 Z3 Z3).o 0 0 0 0 =
        fwdRowOut Z4 Z4 Z4 1 2 1 2 (blockK 1) false 0 0 0 0 := by
      simp only [forwardCall]
      rw [if_pos (show (0:ℕ) < 1 ∧ (0:ℕ) < 1 ∧ (0:ℕ) < 2 ∧ (0:ℕ) < 1 by norm_num)]
      exact fwdLaunch_read (by norm_num) (by norm_num) (by norm_num) (by norm_num)
        (by norm_num) (by norm_num) (by rw [blockK_one]; norm_num)
    rw [h1]
    norm_num [fwdRowOut, fwdRowState, fwdStep, fwdInit, cdiv, blockK_one,
      listRangeOne, Finset.sum_range_succ, Finset.sup_const, Finset.nonempty_range_iff,
      bot_sup_eq, load4, Z4]
  · have h1 : (forwardCall Z4 Z4 VB 1 false 2 1 1 2 1 Z4 Z3 Z3).o 0 0 0 0 =
        fwdRowOut Z4 Z4 VB 1 2 1 2 (blockK 1) false 0 0 0 0 := by
      simp only [forwardCall]
      rw [if_pos (show (0:ℕ) < 1 ∧ (0:ℕ) < 1 ∧ (0:ℕ) < 2 ∧ (0:ℕ) < 1 by norm_num)]
      exact fwdLaunch_read (by norm_num) (by norm_num) (by norm_num) (by norm_num)
        (by norm_num) (by norm_num) (by rw [blockK_one]; norm_num)
    rw [h1]
    norm_num [fwdRowOut, fwdRowState, fwdStep, fwdInit, cdiv, blockK_one,
      listRangeOne, Finset.sum_range_succ, Finset.sup_const, Finset.nonempty_range_iff,
      bot_sup_eq, load4, VB, Z4]

/-! ## The dispatcher's feature-tile rounding (C9) -/

theorem grow_of_lt {d cur : ℕ} (h1 : 0 < cur) (h2 : cur < d) :
    grow d cur = grow d (cur * 2) := by
  rw [grow]
  exact dif_pos ⟨h1, h2⟩

theorem grow_of_ge {d cur : ℕ} (h2 : d ≤ cur) : grow d cur = cur := by
  rw [grow]
  exact dif_neg (by omega)

/-- `d & (d - 1) == 0` really does detect powers of two (for positive `d`):
the branch the dispatcher takes without running the doubling loop is only
taken when `head_dim` is already a power of two. -/
theorem pow2_of_land_pred_eq_zero :
    ∀ d, 0 < d → d &&& (d - 1) = 0 → ∃ k, d = 2 ^ k := by
  intro d
  induction d using Nat.strong_induction_on with
  | _ d ih =>
    intro hd hland
    rcases Nat.even_or_odd d with he | ho
    · have he2 : d % 2 = 0 := Nat.even_iff.mp he
      have hepos : 0 < d / 2 := by omega
      have hlande : (d / 2) &&& (d / 2 - 1) = 0 := by
        apply Nat.eq_of_testBit_eq
        intro i
        simp only [Nat.testBit_land, Nat.zero_testBit]
        have hb := congrArg (fun x => Nat.testBit x (i + 1)) hland
        simp only [Nat.testBit_land, Nat.zero_testBit] at hb
        rw [Nat.testBit_succ, Nat.testBit_succ] at hb
        have heq : (d - 1) / 2 = d / 2 - 1 := by omega
        rw [heq] at hb
        exact hb
      obtain ⟨k, hk⟩ := ih (d / 2) (by omega) hepos hlande
      refine ⟨k + 1, ?_⟩
      have : d = 2 * (d / 2) := by omega
      rw [this, hk]
      ring
    · have ho2 : d % 2 = 1 := Nat.odd_iff.mp ho
      by_cases h1 : d = 1
      · exact ⟨0, by simp [h1]⟩
      · exfalso
        have hhalf : ∀ i, (d / 2).testBit i = false := by
          intro i
          have hb := congrArg (fun x => Nat.testBit x (i + 1)) hland
          simp only [Nat.testBit_land, Nat.zero_testBit] at hb
          rw [Nat.testBit_succ, Nat.testBit_succ] at hb
          have heq : (d - 1) / 2 = d / 2 := by omega
          rw [heq] at hb
          simpa using hb
        have hz : d / 2 = 0 := Nat.eq_of_testBit_eq (by simp [hhalf, Nat.zero_testBit])
        omega

theorem grow_run (d : ℕ) :
    ∀ n j, d - 2 ^ j ≤ n → 2 ^ j ≤ 2 ^ Nat.clog 2 d →
      grow d (2 ^ j) = 2 ^ Nat.clog 2 d := by
  intro n
  induction n with
  | zero =>
    intro j hn hle
    have hp : 0 < (2 : ℕ) ^ j := Nat.pow_pos (by norm_num)
    have hdj : d ≤ 2 ^ j := by omega
    rw [grow_of_ge hdj]
    have h1 : Nat.clog 2 d ≤ j := (Nat.le_pow_iff_clog_le (by norm_num)).mp hdj
    have h2 : 2 ^ Nat.clog 2 d ≤ 2 ^ j := Nat.pow_le_pow_right (by norm_num) h1
    omega
  | succ n ih =>
    intro j hn hle
    by_cases hc : 2 ^ j < d
    · have hp : 0 < (2 : ℕ) ^ j := Nat.pow_pos (by norm_num)
      rw [grow_of_lt hp hc, show (2 : ℕ) ^ j * 2 = 2 ^ (j + 1) by ring]
      have hsucc : (2 : ℕ) ^ (j + 1) = 2 ^ j + 2 ^ j := by ring
      have hdc : d ≤ 2 ^ Nat.clog 2 d := Nat.le_pow_clog (by norm_num) d
      have hj : j < Nat.clog 2 d :=
        (Nat.pow_lt_pow_iff_right (by norm_num)).mp (lt_of_lt_of_le hc hdc)
      refine ih (j + 1) (by omega) ?_
      exact Nat.pow_le_pow_right (by norm_num) hj
    · have hp : 0 < (2 : ℕ) ^ j := Nat.pow_pos (by norm_num)
      have hdj : d ≤ 2 ^ j := by omega
      rw [grow_of_ge hdj]
      have h1 : Nat.clog 2 d ≤ j := (Nat.le_pow_iff_clog_le (by norm_num)).mp hdj
      have h2 : 2 ^ Nat.clog 2 d ≤ 2 ^ j := Nat.pow_le_pow_right (by norm_num) h1
      omega

/-- The dispatcher's `BLOCK_SIZE_K` always equals `2 ^ clog 2 head_dim`. -/
theorem blockK_eq_pow_clog (d : ℕ) (hd : 0 < d) : blockK d = 2 ^ Nat.clog 2 d := by
  rw [blockK]
  by_cases hl : d &&& (d - 1) ≠ 0
  · rw [if_pos hl, show (1 : ℕ) = 2 ^ 0 by norm_num]
    refine grow_run d d 0 (by omega) ?_
    exact Nat.one_le_two_pow
  · rw [if_neg hl]
    push_neg at hl
    obtain ⟨k, rfl⟩ := pow2_of_land_pred_eq_zero d hd hl
    rw [Nat.clog_pow 2 k (by norm_num)]

/-- The feature-tile size is at least the true feature dimension. -/
theorem le_blockK {d : ℕ} (hd : 0 < d) : d ≤ blockK d := by
  rw [blockK_eq_pow_clog d hd]
  exact Nat.le_pow_clog (by norm_num) d


/-- C9: for every positive `head_dim`, the dispatcher's feature-tile size
`BLOCK_SIZE_K` is a power of two, is at least `head_dim`, and is the least
power of two with that property (hence equals `head_dim` when `head_dim` is
itself a power of two). -/
theorem C9_blockK_least_pow2 (d : ℕ) (hd : 0 < d) :
    (∃ k, blockK d = 2 ^ k) ∧ d ≤ blockK d ∧ ∀ k, d ≤ 2 ^ k → blockK d ≤ 2 ^ k := by
  rw [blockK_eq_pow_clog d hd]
  refine ⟨⟨Nat.clog 2 d, rfl⟩, Nat.le_pow_clog (by norm_num) d, ?_⟩
  intro k hk
  exact Nat.pow_le_pow_right (by norm_num) ((Nat.le_pow_iff_clog_le (by norm_num)).mp hk)

/-- Witness for C9 at `head_dim = 3`: the hypothesis `0 < 3` holds and the
conclusion follows by applying the theorem. -/
theorem C9_blockK_least_pow2_witness :
    (0 < 3) ∧
      ((∃ k, blockK 3 = 2 ^ k) ∧ 3 ≤ blockK 3 ∧ ∀ k, 3 ≤ 2 ^ k → blockK 3 ≤ 2 ^ k) :=
  ⟨by norm_num, C9_blockK_least_pow2 3 (by norm_num)⟩

/-! ## The running sum at normalization time (C7) -/

/-- Key columns `j ≤ i` are never causally masked: the score survives as a
finite value. -/
theorem maskedScore_of_le {causal : Bool} {Q K : Tensor4} {scale : ℝ}
    {S D BK b h i j : ℕ} (hj : j ≤ i) :
    maskedScore causal Q K scale S D BK b h i j =
      ((rawScore Q K scale S D BK b h i j : ℝ) : WithBot ℝ) := by
  unfold maskedScore
  rw [if_neg]
  rintro ⟨-, hlt⟩
  omega

/-- A predicate preserved along a fold is satisfied by the result. -/
theorem foldl_preserve {α : Type _} {β : Type _} (P : α → Prop) (f : α → β → α)
    (hf : ∀ s t, P s → P (f s t)) : ∀ (L : List β) (s : α), P s → P (L.foldl f s) := by
  intro L
  induction L with
  | nil => intro s hs; exact hs
  | cons x xs ihx => intro s hs; exact ihx _ (hf _ _ hs)

/-- The invariant carried across key/value tiles: the running maximum is
finite and the running sum strictly positive. -/
def goodState (s : FwdState) : Prop := s.m ≠ ⊥ ∧ 0 < s.l

/-- After the first tile (which always contains the never-masked column 0),
the forward state satisfies the invariant. -/
theorem fwdStep_init_good (Q K V : Tensor4) (scale : ℝ) (S D BN BK : ℕ)
    (causal : Bool) (b h i : ℕ) (hBN : 0 < BN) :
    goodState (fwdStep Q K V scale S D BN BK causal b h i fwdInit 0) := by
  have h0 : (0 : ℕ) ∈ Finset.range BN := Finset.mem_range.mpr hBN
  have hsc0 : maskedScore causal Q K scale S D BK b h i (0 * BN + 0) =
      ((rawScore Q K scale S D BK b h i (0 * BN + 0) : ℝ) : WithBot ℝ) :=
    maskedScore_of_le (by omega)
  have hle : maskedScore causal Q K scale S D BK b h i (0 * BN + 0) ≤
      (Finset.range BN).sup
        (fun c => maskedScore causal Q K scale S D BK b h i (0 * BN + c)) :=
    @Finset.le_sup _ _ _ _ (Finset.range BN)
      (fun c => maskedScore causal Q K scale S D BK b h i (0 * BN + c)) 0 h0
  have hsup : (Finset.range BN).sup
      (fun c => maskedScore causal Q K scale S D BK b h i (0 * BN + c)) ≠ ⊥ := by
    intro hcon
    rw [hcon, le_bot_iff, hsc0] at hle
    exact WithBot.coe_ne_bot hle
  obtain ⟨mx, hmx⟩ : ∃ mx : ℝ, (Finset.range BN).sup
      (fun c => maskedScore causal Q K scale S D BK b h i (0 * BN + c)) = ↑mx := by
    obtain ⟨mx, hmx⟩ := WithBot.ne_bot_iff_exists.mp hsup
    exact ⟨mx, hmx.symm⟩
  constructor
  · show fwdInit.m ⊔ _ ≠ ⊥
    rw [fwdInit, bot_sup_eq, hmx]
    exact WithBot.coe_ne_bot
  · show 0 < expSub fwdInit.m _ * fwdInit.l + ∑ c ∈ Finset.range BN, expSub _ _
    simp only [fwdInit, expSub_bot, mul_zero, bot_sup_eq]
    rw [zero_add]
    refine Finset.sum_pos' (fun c _ => expSub_nonneg _ _) ⟨0, h0, ?_⟩
    rw [hsc0, hmx, expSub_coe_coe]
    exact Real.exp_pos _

/-- Every later tile preserves the invariant: the running maximum only
grows and the rescaling factor `alpha` is a genuine exponential. -/
theorem fwdStep_good (Q K V : Tensor4) (scale : ℝ) (S D BN BK : ℕ)
    (causal : Bool) (b h i : ℕ) (s : FwdState) (t : ℕ) (hs : goodState s) :
    goodState (fwdStep Q K V scale S D BN BK causal b h i s t) := by
  obtain ⟨hm, hl⟩ := hs
  obtain ⟨a, ha⟩ : ∃ a : ℝ, s.m = ↑a := by
    obtain ⟨a, ha⟩ := WithBot.ne_bot_iff_exists.mp hm
    exact ⟨a, ha.symm⟩
  have hmnew : s.m ⊔ (Finset.range BN).sup
      (fun c => maskedScore causal Q K scale S D BK b h i (t * BN + c)) ≠ ⊥ := by
    intro hcon
    rw [sup_eq_bot_iff] at hcon
    exact hm hcon.1
  obtain ⟨c0, hc0⟩ : ∃ c0 : ℝ, s.m ⊔ (Finset.range BN).sup
      (fun c => maskedScore causal Q K scale S D BK b h i (t * BN + c)) = ↑c0 := by
    obtain ⟨c0, hc0⟩ := WithBot.ne_bot_iff_exists.mp hmnew
    exact ⟨c0, hc0.symm⟩
  constructor
  · show s.m ⊔ _ ≠ ⊥
    exact hmnew
  · show 0 < expSub s.m _ * s.l + ∑ c ∈ Finset.range BN, expSub _ _
    refine add_pos_of_pos_of_nonneg ?_ (Finset.sum_nonneg fun c _ => expSub_nonneg _ _)
    rw [ha] at hc0 ⊢
    rw [hc0, expSub_coe_coe]
    exact mul_pos (Real.exp_pos _) hl

/-- C7: for every stored row (`i < seq_len`) the kernel has at least one
valid (in-range, never causally masked) key column, and the running sum is
strictly positive at the point where `out = acc / l_i` is computed — the
division by a zero running sum that the claim guards against cannot occur
for any written row.  (Rows with zero valid keys do not exist among written
rows, so that branch of the claim is vacuous.) -/
theorem C7_running_sum_pos (Q K V : Tensor4) (scale : ℝ) (S D BN BK : ℕ)
    (causal : Bool) (b h i : ℕ) (hi : i < S) (hBN : 0 < BN) :
    1 ≤ validKeyCount causal S i ∧
      0 < (fwdRowState Q K V scale S D BN BK causal b h i).l := by
  constructor
  · have h0S : 0 < S := lt_of_le_of_lt (Nat.zero_le i) hi
    refine Finset.card_pos.mpr ⟨0, ?_⟩
    rw [Finset.mem_filter, Finset.mem_range]
    exact ⟨h0S, Or.inr (Nat.zero_le i)⟩
  · have hT : 1 ≤ cdiv S BN := by
      rw [cdiv, Nat.le_div_iff_mul_le hBN]
      omega
    obtain ⟨T, hTeq⟩ : ∃ T, cdiv S BN = T + 1 := ⟨cdiv S BN - 1, by omega⟩
    rw [fwdRowState, hTeq, List.range_succ_eq_map, List.foldl_cons]
    exact (foldl_preserve goodState _
      (fwdStep_good Q K V scale S D BN BK causal b h i) _ _
      (fwdStep_init_good Q K V scale S D BN BK causal b h i hBN)).2

/-- Witness for C7 at batch=heads=1, seq_len=1, head_dim=1, tile size 1,
row 0, zero tensors: the hypotheses `0 < 1` hold and the conclusion follows
by applying the theorem. -/
theorem C7_running_sum_pos_witness :
    1 ≤ validKeyCount false 1 0 ∧
      0 < (fwdRowState Z4 Z4 Z4 1 1 1 1 1 false 0 0 0).l :=
  C7_running_sum_pos Z4 Z4 Z4 1 1 1 1 1 false 0 0 0 (by norm_num) (by norm_num)

/-! ## Causal noninterference (C6) -/

/-- Folding two pointwise-equal step functions gives equal results. -/
theorem foldl_congr_fn {α : Type _} {β : Type _} (f g : α → β → α)
    (h : ∀ s t, f s t = g s t) : ∀ (L : List β) (s : α), L.foldl f s = L.foldl g s := by
  intro L
  induction L with
  | nil => intro s; rfl
  | cons x xs ihx =>
    intro s
    rw [List.foldl_cons, List.foldl_cons, h]
    exact ihx _

/-- Under causal masking, the masked score of row `i` against any column
depends on Key only through positions `≤ i`: columns beyond `i` are `⊥`
regardless of Key, and columns `≤ i` read identical Key data. -/
theorem maskedScore_causal_congr {Q K K2 : Tensor4} {scale : ℝ}
    {S D BK b h i : ℕ} (hK : ∀ j d, j ≤ i → K b h j d = K2 b h j d) (j : ℕ) :
    maskedScore true Q K scale S D BK b h i j =
      maskedScore true Q K2 scale S D BK b h i j := by
  unfold maskedScore
  by_cases hij : i < j
  · rw [if_pos ⟨rfl, hij⟩, if_pos ⟨rfl, hij⟩]
  · have hraw : rawScore Q K scale S D BK b h i j = rawScore Q K2 scale S D BK b h i j := by
      unfold rawScore
      congr 1
      refine Finset.sum_congr rfl fun k2 _ => ?_
      congr 1
      unfold load4
      by_cases hcase : j < S ∧ k2 < D
      · rw [if_pos hcase, if_pos hcase, hK j k2 (Nat.le_of_not_lt hij)]
      · rw [if_neg hcase, if_neg hcase]
    rw [if_neg (fun hcon => hij hcon.2), if_neg (fun hcon => hij hcon.2), hraw]

/-- One causal forward step for row `i` is unchanged when Key and Value are
modified at positions `> i`: masked scores agree, and value columns `> i`
are multiplied by a probability that the causal mask has zeroed. -/
theorem fwdStep_causal_congr (Q K K2 V V2 : Tensor4) (scale : ℝ)
    (S D BN BK b h i : ℕ)
    (hK : ∀ j d, j ≤ i → K b h j d = K2 b h j d)
    (hV : ∀ j d, j ≤ i → V b h j d = V2 b h j d)
    (s : FwdState) (t : ℕ) :
    fwdStep Q K V scale S D BN BK true b h i s t =
      fwdStep Q K2 V2 scale S D BN BK true b h i s t := by
  have hms := @maskedScore_causal_congr Q K K2 scale S D BK b h i hK
  simp only [fwdStep, hms, FwdState.mk.injEq]
  refine ⟨trivial, trivial, ?_⟩
  funext k
  congr 1
  refine Finset.sum_congr rfl fun c _ => ?_
  by_cases hc : t * BN + c ≤ i
  · have hload : load4 V S D b h (t * BN + c) k = load4 V2 S D b h (t * BN + c) k := by
      unfold load4
      by_cases hcase : t * BN + c < S ∧ k < D
      · rw [if_pos hcase, if_pos hcase, hV _ k hc]
      · rw [if_neg hcase, if_neg hcase]
    rw [hload]
  · have hbot : maskedScore true Q K2 scale S D BK b h i (t * BN + c) = ⊥ := by
      unfold maskedScore
      rw [if_pos ⟨rfl, by omega⟩]
    rw [hbot, expSub_bot, zero_mul, zero_mul]

/-- C6 as stated is violated when `head_dim < batch_size`: at batch=5,
heads=1, seq_len=2, head_dim=2, tile size 1, causal=true, scale=1, the M
store of the program owning row (4,0,1) goes to flat offset 17 from the
output pointer — which is output element (4,0,0,1) — and runs after that
element's own out store (its program is earlier in the grid), so under this
admissible schedule the stored Output at row 0 is the running maximum of
row 1.  That maximum changes from 0 to 5 when Key position 1 (a position
strictly greater than the row) changes, while Key position 0 is identical
between the two runs. -/
theorem C6_counterexample_stat_clobbers_output :
    (forwardCall Q6c Z4 Z4 1 true 1 5 1 2 2 Z4 Z3 Z3).o 4 0 0 1 = 0 ∧
      (forwardCall Q6c K6c Z4 1 true 1 5 1 2 2 Z4 Z3 Z3).o 4 0 0 1 = 5 ∧
      K6c 4 0 0 0 = Z4 4 0 0 0 ∧ K6c 4 0 0 1 = Z4 4 0 0 1 := by
  refine ⟨?_, ?_, by norm_num [K6c, Z4], by norm_num [K6c, Z4]⟩
  · simp only [forwardCall]
    rw [if_pos (show (4:ℕ) < 5 ∧ (0:ℕ) < 1 ∧ (0:ℕ) < 2 ∧ (1:ℕ) < 2 by norm_num)]
    norm_num [fwdLaunch, fwdProgramStores, cdiv, blockK_two, listRangeOne, listRangeTwo,
      listRangeFive, store1, mStoreAddr, lStoreAddr, oFlatIdx, List.foldl_cons,
      List.foldl_nil, fwdRowState, fwdStep, fwdInit, maskedScore, rawScore, load4,
      Q6c, Z4, Finset.sum_range_succ, Finset.range_one, Finset.sup_singleton, bot_sup_eq]
  · simp only [forwardCall]
    rw [if_pos (show (4:ℕ) < 5 ∧ (0:ℕ) < 1 ∧ (0:ℕ) < 2 ∧ (1:ℕ) < 2 by norm_num)]
    norm_num [fwdLaunch, fwdProgramStores, cdiv, blockK_two, listRangeOne, listRangeTwo,
      listRangeFive, store1, mStoreAddr, lStoreAddr, oFlatIdx, List.foldl_cons,
      List.foldl_nil, fwdRowState, fwdStep, fwdInit, maskedScore, rawScore, load4,
      Q6c, K6c, Z4, Finset.sum_range_succ, Finset.range_one, Finset.sup_singleton,
      bot_sup_eq]
    rfl

/-- C6 (amended): with causal masking on and `batch_size ≤ head_dim` — so
the kernel's misdirected M/L stores land beyond the output allocation
instead of inside it — the forward output at any in-range row `i` is
invariant under arbitrary changes to Key or Value at positions `> i`:
those entries are set to -inf before the softmax step and contribute
nothing to the running maximum, running sum or output accumulator. -/
theorem C6_causal_invariance (Q K K2 V V2 oInit : Tensor4) (mInit lInit : Stats)
    (scale : ℝ) (BS B H S D b h i k : ℕ)
    (hBD : B ≤ D) (hBS : 0 < BS) (hi : i < S)
    (hK : ∀ j d, j ≤ i → K b h j d = K2 b h j d)
    (hV : ∀ j d, j ≤ i → V b h j d = V2 b h j d) :
    (forwardCall Q K V scale true BS B H S D oInit mInit lInit).o b h i k =
      (forwardCall Q K2 V2 scale true BS B H S D oInit mInit lInit).o b h i k := by
  have hstate : fwdRowState Q K V scale S D BS (blockK D) true b h i =
      fwdRowState Q K2 V2 scale S D BS (blockK D) true b h i := by
    unfold fwdRowState
    exact foldl_congr_fn _ _
      (fwdStep_causal_congr Q K K2 V V2 scale S D BS (blockK D) b h i hK hV) _ _
  simp only [forwardCall]
  by_cases hcond : b < B ∧ h < H ∧ i < S ∧ k < D
  · rw [if_pos hcond, if_pos hcond]
    have hkD := hcond.2.2.2
    have hD : 0 < D := by omega
    have hkBK : k < blockK D := lt_of_lt_of_le hkD (le_blockK hD)
    rw [fwdLaunch_read hBD hBS hcond.1 hcond.2.1 hcond.2.2.1 hkD hkBK,
      fwdLaunch_read hBD hBS hcond.1 hcond.2.1 hcond.2.2.1 hkD hkBK]
    unfold fwdRowOut
    rw [hstate]
  · rw [if_neg hcond, if_neg hcond]

/-- Witness for the amended C6 at batch=heads=seq_len=head_dim=1 (so
`batch_size ≤ head_dim` holds), tile size 1, row 0: the Key pair and the
Value pair each agree at position 0 (≤ the row) and differ everywhere
later; the hypotheses hold and the conclusion follows by applying the
theorem. -/
theorem C6_causal_invariance_witness :
    (forwardCall One4 K6a Z4 1 true 1 1 1 1 1 Z4 Z3 Z3).o 0 0 0 0 =
      (forwardCall One4 K6b VB 1 true 1 1 1 1 1 Z4 Z3 Z3).o 0 0 0 0 :=
  C6_causal_invariance One4 K6a K6b Z4 VB Z4 Z3 Z3 1 1 1 1 1 1 0 0 0 0
    (le_refl 1) (by norm_num) (by norm_num)
    (by
      intro j d hj
      have hj0 : j = 0 := Nat.le_zero.mp hj
      subst hj0
      simp [K6a, K6b])
    (by
      intro j d hj
      have hj0 : j = 0 := Nat.le_zero.mp hj
      subst hj0
      simp [Z4, VB])

end

end FlashAttn
